import Mathlib

/-!
Verification of the Bear repository (rust sources) against its
natural-language specification.

The development shallowly embeds the two source files:

* `src/rust/bear/src/bin/main.rs` — the semantic pipeline driver:
  `SemanticRecognition::apply`, `SemanticTransform::apply` and
  `SemanticTransform::transform_pass`.
* `src/rust/intercept/src/lib.rs` — the `Envelope` codec:
  `Envelope::read_from` and `Envelope::write_into`.

Machine integers become `Nat` with explicit `% 2 ^ 32` where the code
casts (`bytes.len() as u32`).  Fallible code returns `Option` / `Except`.
The `panic!` branch of `transform_pass` is modelled as `Option.none`.
-/

namespace Bear

/-! ## Semantic data model

The `semantic` module of the repository is not under `src/`; only its
callers are.  The shapes below are taken from the pattern matches in
`main.rs` and, where those are silent, modelled from the spec.
-/

/-- One semantic sub-operation of a compiler call.
`Compile` mirrors the `semantic::CompilerPass::Compile { source, output, flags }`
variant matched in `main.rs`.  `Other` is modelled from the spec: the
spec mentions passes without per-file flags (e.g. a pure link step). -/
inductive CompilerPass where
  | Compile (source : String) (output : String) (flags : List String)
  | Other (tag : String)
deriving DecidableEq, Repr

/-- Classification outcome, mirroring `semantic::Meaning` as matched in
`main.rs`: `Ignored`, or `Compiler { compiler, working_dir, passes }`. -/
inductive Meaning where
  | Ignored
  | Compiler (compiler : String) (working_dir : String) (passes : List CompilerPass)
deriving DecidableEq, Repr

/-- Embeds `SemanticTransform` from `main.rs`: either `NoTransform` or
`Transform { arguments_to_add, arguments_to_remove }`. -/
inductive SemanticTransform where
  | NoTransform
  | Transform (arguments_to_add : List String) (arguments_to_remove : List String)
deriving DecidableEq, Repr

/-- True exactly on `Compile` passes. -/
def CompilerPass.isCompile : CompilerPass → Bool
  | .Compile _ _ _ => true
  | _ => false

/-- Embeds `SemanticTransform::transform_pass` from `main.rs`.

The source matches the pass first: a `Compile` pass under the
`Transform` state gets its flags filtered by `arguments_to_remove` and
then chained with `arguments_to_add`; a `Compile` pass under any other
state hits `panic!` (modelled as `none`); every non-`Compile` pass is
returned unchanged. -/
def SemanticTransform.transform_pass (self : SemanticTransform) (pass : CompilerPass) :
    Option CompilerPass :=
  match pass with
  | .Compile source output flags =>
    match self with
    | .Transform arguments_to_add arguments_to_remove =>
      let flags_transformed :=
        (flags.filter (fun flag => !(arguments_to_remove.contains flag))) ++ arguments_to_add
      some (.Compile source output flags_transformed)
    | _ => none
  | _ => some pass

/-- The `passes.into_iter().map(|pass| self.transform_pass(pass)).collect()`
loop of `SemanticTransform::apply`, with the `panic!` inside
`transform_pass` propagated as `none`. -/
def SemanticTransform.transform_passes (self : SemanticTransform) :
    List CompilerPass → Option (List CompilerPass)
  | [] => some []
  | pass :: rest => do
    let head ← self.transform_pass pass
    let tail ← self.transform_passes rest
    pure (head :: tail)

/-- Embeds `SemanticTransform::apply` from `main.rs`: a `Compiler` meaning under
the `Transform` state has all its passes rewritten by `transform_pass`;
every other input (any meaning under `NoTransform`, and `Ignored` under
any state) is returned unchanged. -/
def SemanticTransform.apply (self : SemanticTransform) (input : Meaning) : Option Meaning :=
  match self, input with
  | .Transform arguments_to_add arguments_to_remove, .Compiler compiler working_dir passes =>
    match (SemanticTransform.Transform arguments_to_add arguments_to_remove).transform_passes
        passes with
    | some passes_transformed => some (.Compiler compiler working_dir passes_transformed)
    | none => none
  | _, input => some input

/-- Spec-side description of flag removal: for each flag of
`arguments_to_remove` in turn, remove every exact-match occurrence of it
from the list, keeping the relative order of the survivors. -/
def specRemoveFlags (arguments_to_remove : List String) (flags : List String) : List String :=
  arguments_to_remove.foldl (fun acc r => acc.filter (fun flag => decide (flag ≠ r))) flags

/-- The per-pass rewrite of the `Transform` state as a total function:
what `transform_pass` computes when the state is
`Transform arguments_to_add arguments_to_remove`. -/
def rewriteFlagsFun (add rs : List String) : CompilerPass → CompilerPass
  | .Compile source output flags =>
    .Compile source output ((flags.filter (fun flag => !(rs.contains flag))) ++ add)
  | p => p

/-- The `arguments_to_add` component of a transformer state
(empty for `NoTransform`). -/
def SemanticTransform.argumentsToAdd : SemanticTransform → List String
  | .NoTransform => []
  | .Transform add _ => add

/-- Relation stating that a rewritten pass kept the shape of the
original: a `Compile` pass keeps its source and output (only flags may
differ), and every other pass is literally unchanged. -/
def passShapePreserved : CompilerPass → CompilerPass → Prop
  | .Compile source output _, q => ∃ flags, q = .Compile source output flags
  | p, q => q = p

/-! ## Recognition stage

`SemanticRecognition` from `main.rs` wraps a `Box<dyn semantic::Tool>`;
the tool itself lives in the `semantic` module (not under `src/`), so it
is kept abstract here as a function from executions to results. -/

/-- Embeds `intercept::Execution` from `lib.rs`: executable path, ordered
argument list, working directory, environment mapping.  Rust strings and
paths are modelled as their byte sequences (`List Nat`); the `HashMap`
environment is modelled as an association list. -/
structure Execution where
  executable : List Nat
  arguments : List (List Nat)
  working_dir : List Nat
  environment : List (List Nat × List Nat)
deriving DecidableEq, Repr

/-- Embeds `intercept::Event` from `lib.rs`: a `ProcessId` (u32, modelled as
`Nat`) and the execution. -/
structure Event where
  pid : Nat
  execution : Execution
deriving DecidableEq, Repr

/-- Embeds `intercept::Envelope` from `lib.rs`: a `ReporterId` (u64, modelled
as `Nat`), a millisecond timestamp (u64) and the event. -/
structure Envelope where
  rid : Nat
  timestamp : Nat
  event : Event
deriving DecidableEq, Repr

/-- Embeds `semantic::RecognitionResult` as matched in `main.rs`:
`NotRecognized`, or `Recognized` carrying a success-with-`Meaning` or a
failure-with-reason. -/
inductive RecognitionResult where
  | NotRecognized
  | Recognized (result : Except String Meaning)

/-- Embeds `SemanticRecognition` from `main.rs`, with the boxed recognition
tool abstracted as a function. -/
structure SemanticRecognition where
  tool : Execution → RecognitionResult

/-- Embeds `SemanticRecognition::apply` from `main.rs`: a meaning is produced
exactly for `Recognized(Ok(m))` with `m` not `Ignored`; recognized-but-
ignored, recognition failures and unrecognized executions yield nothing. -/
def SemanticRecognition.apply (self : SemanticRecognition) (execution : Execution) :
    Option Meaning :=
  match self.tool execution with
  | .Recognized (.ok .Ignored) => none
  | .Recognized (.ok semantic) => some semantic
  | .Recognized (.error _) => none
  | .NotRecognized => none

/-- The recognition stage of the pipeline in `Application::run`:
`event_source.generate().flat_map(|execution| semantic_recognition.apply(execution))`. -/
def recognitionStage (self : SemanticRecognition) (executions : List Execution) : List Meaning :=
  executions.filterMap self.apply

/-- A concrete recognition tool used to evaluate the recognition stage
on explicit inputs: executions with no arguments are not recognized,
the rest are classified as a compiler call. -/
def exampleRecognizer : SemanticRecognition :=
  ⟨fun ex =>
    if ex.arguments = [] then .NotRecognized
    else .Recognized (.ok (.Compiler "cc" "/proj" []))⟩

/-! ## Envelope codec

`Envelope::read_from` / `Envelope::write_into` from `lib.rs`.  The byte
stream is a `List Nat`.  The serde_json payload serialization is
repository-external; it is modelled from the spec (an injective,
self-delimiting text encoding of the `Envelope`), while the framing —
the 4-byte big-endian length prefix, the `as u32` cast, the exact reads
— is translated from the source. -/

/-- Encode a natural number as a run of `n` tally-mark bytes (48, the
ASCII zero) followed by the terminator byte 59 (the semicolon). -/
def encNat (n : Nat) : List Nat := List.replicate n 48 ++ [59]

/-- Parse a terminated tally-mark number; returns the value and the
rest of the stream. -/
def parseNat (s : List Nat) : Option (Nat × List Nat) :=
  let ds := s.takeWhile (fun c => c == 48)
  match s.drop ds.length with
  | 59 :: r => some (ds.length, r)
  | _ => none

/-- Encode a byte string as its length followed by its bytes. -/
def encBytes (b : List Nat) : List Nat := encNat b.length ++ b

/-- Parse a length-prefixed byte string. -/
def parseBytes (s : List Nat) : Option (List Nat × List Nat) :=
  match parseNat s with
  | some (n, r) => if n ≤ r.length then some (r.take n, r.drop n) else none
  | none => none

/-- Concatenate the encodings of a list's elements. -/
def encMany {α : Type} (enc : α → List Nat) : List α → List Nat
  | [] => []
  | x :: xs => enc x ++ encMany enc xs

/-- Parse exactly `k` consecutive elements. -/
def parseMany {α : Type} (p : List Nat → Option (α × List Nat)) :
    Nat → List Nat → Option (List α × List Nat)
  | 0, s => some ([], s)
  | k + 1, s =>
    match p s with
    | some (x, r) =>
      match parseMany p k r with
      | some (xs, r2) => some (x :: xs, r2)
      | none => none
    | none => none

/-- Encode a list as its length followed by its elements' encodings. -/
def encListOf {α : Type} (enc : α → List Nat) (xs : List α) : List Nat :=
  encNat xs.length ++ encMany enc xs

/-- Parse a length-prefixed list. -/
def parseListOf {α : Type} (p : List Nat → Option (α × List Nat)) (s : List Nat) :
    Option (List α × List Nat) :=
  match parseNat s with
  | some (n, r) => parseMany p n r
  | none => none

/-- Encode a pair of byte strings (an environment entry). -/
def encPairB (p : List Nat × List Nat) : List Nat := encBytes p.1 ++ encBytes p.2

/-- Parse a pair of byte strings. -/
def parsePairB (s : List Nat) : Option ((List Nat × List Nat) × List Nat) :=
  match parseBytes s with
  | some (a, r) =>
    match parseBytes r with
    | some (b, r2) => some ((a, b), r2)
    | none => none
  | none => none

/-- Modelled from the spec: the serde_json payload produced by
`serde_json::to_string(&envelope)` (the `serde_json` crate is not part
of this repository).  Per the spec the payload is a self-describing text
encoding of the whole `Envelope`; it is modelled as an injective,
self-delimiting text encoding of every field, total on all envelopes. -/
def serializeEnvelope (e : Envelope) : List Nat :=
  encNat e.rid ++ encNat e.timestamp ++ encNat e.event.pid ++
    encBytes e.event.execution.executable ++
    encListOf encBytes e.event.execution.arguments ++
    encBytes e.event.execution.working_dir ++
    encListOf encPairB e.event.execution.environment

/-- Modelled from the spec: the parser corresponding to
`serde_json::from_slice::<Envelope>`; parses one envelope and returns
the unconsumed remainder. -/
def parseEnvelope (s : List Nat) : Option (Envelope × List Nat) :=
  (parseNat s).bind fun (rid, s1) =>
  (parseNat s1).bind fun (ts, s2) =>
  (parseNat s2).bind fun (pid, s3) =>
  (parseBytes s3).bind fun (exe, s4) =>
  (parseListOf parseBytes s4).bind fun (args, s5) =>
  (parseBytes s5).bind fun (wd, s6) =>
  (parseListOf parsePairB s6).bind fun (env, s7) =>
  some (⟨rid, ts, ⟨pid, ⟨exe, args, wd, env⟩⟩⟩, s7)

/-- Models `serde_json::from_slice` on the exact payload buffer: the whole
buffer must be one envelope, with no trailing bytes. -/
def deserializeEnvelope (buffer : List Nat) : Option Envelope :=
  match parseEnvelope buffer with
  | some (e, []) => some e
  | _ => none

/-- Decode failure: an end-of-stream read error from `read_exact`, or a
serde format error. -/
inductive DecodeErr where
  | eof
  | format
deriving DecidableEq, Repr

/-- Models `Read::read_exact` on a byte stream: succeeds only when `n` bytes
are available, consuming exactly `n`. -/
def readExact (n : Nat) (s : List Nat) : Except DecodeErr (List Nat × List Nat) :=
  if n ≤ s.length then .ok (s.take n, s.drop n) else .error .eof

/-- Models `u32::to_be_bytes` on a value already reduced below `2 ^ 32`. -/
def natToBeBytes (n : Nat) : List Nat :=
  [n / 2 ^ 24 % 256, n / 2 ^ 16 % 256, n / 2 ^ 8 % 256, n % 256]

/-- Models `u32::from_be_bytes` on a 4-byte buffer. -/
def fromBeBytes4 (bs : List Nat) : Nat :=
  match bs with
  | [b0, b1, b2, b3] => ((b0 * 256 + b1) * 256 + b2) * 256 + b3
  | _ => 0

/-- Embeds `Envelope::read_from` from `lib.rs`: read exactly 4 length bytes,
interpret them big-endian, read exactly that many payload bytes, parse
the payload; the unconsumed remainder of the stream is returned
alongside the envelope. -/
def Envelope.read_from (s : List Nat) : Except DecodeErr (Envelope × List Nat) :=
  match readExact 4 s with
  | .error e => .error e
  | .ok (length_bytes, s1) =>
    match readExact (fromBeBytes4 length_bytes) s1 with
    | .error e => .error e
    | .ok (buffer, s2) =>
      match deserializeEnvelope buffer with
      | some envelope => .ok (envelope, s2)
      | none => .error .format

/-- Embeds `Envelope::write_into` from `lib.rs`: serialize the envelope, cast
the payload length to `u32` (`% 2 ^ 32`), write the 4 big-endian length
bytes then the payload; the returned number is that cast length.  The
pure byte-list writer cannot fail, and the modelled serialization is
total, so the result is the written bytes and the returned value. -/
def Envelope.write_into (e : Envelope) : List Nat × Nat :=
  let bytes := serializeEnvelope e
  let length := bytes.length % 2 ^ 32
  (natToBeBytes length ++ bytes, length)

/-- An argument string of 2147483646 bytes (the letter `a`), sized so
that the whole envelope's payload is 5 bytes longer than `2 ^ 32`. -/
def bigArgument : List Nat := List.replicate 2147483646 97

/-- An envelope whose serialized payload is `2 ^ 32 + 5` bytes long. -/
def envelopeBig : Envelope := ⟨0, 0, ⟨0, ⟨[], [bigArgument], [], []⟩⟩⟩

/-- Modelled from the spec: the collector's single-writer append
discipline — every successfully received frame is appended whole to the
event log in completion order, so two frames' bytes never interleave.
The log for a given completion order of envelopes is therefore the
concatenation of their frames. -/
def collectorLog : List Envelope → List Nat
  | [] => []
  | e :: es => (Envelope.write_into e).1 ++ collectorLog es

/-- Sequential frame decoder over a finished log: read frames until the
stream is exhausted (with fuel bounding the number of frames). -/
def readFrames : Nat → List Nat → Except DecodeErr (List Envelope)
  | _, [] => .ok []
  | 0, _ :: _ => .error .eof
  | fuel + 1, b :: s =>
    match Envelope.read_from (b :: s) with
    | .ok (e, rest) =>
      match readFrames fuel rest with
      | .ok es => .ok (e :: es)
      | .error err => .error err
    | .error err => .error err

theorem specRemoveFlags_eq_filter (rs F : List String) :
    specRemoveFlags rs F = F.filter (fun flag => !(rs.contains flag)) := by
  induction rs generalizing F with
  | nil =>
    simp [specRemoveFlags]
  | cons r rs ih =>
    have step : specRemoveFlags (r :: rs) F =
        specRemoveFlags rs (F.filter (fun flag => decide (flag ≠ r))) := rfl
    rw [step, ih, List.filter_filter]
    apply List.filter_congr
    intro a _
    by_cases h : a = r
    · subst h
      simp
    · simp [h, Ne.symm]

theorem contains_eq_true_iff (rs : List String) (a : String) :
    rs.contains a = true ↔ a ∈ rs := List.elem_iff

/-- C1: per Compile pass, the rewrite-state Transformer removes every
exact-match occurrence of any flag of `arguments_to_remove` from the
flag list (a stable filter) and appends all of `arguments_to_add` in
configured order at the end; removing an absent flag changes nothing,
and removing a repeated flag removes all of its occurrences. -/
theorem transform_pass_removes_then_appends
    (add rs : List String) (s o : String) (F : List String) :
    (SemanticTransform.Transform add rs).transform_pass (.Compile s o F) =
      some (.Compile s o (specRemoveFlags rs F ++ add)) ∧
    ((∀ r ∈ rs, r ∉ F) → specRemoveFlags rs F = F) ∧
    (∀ r ∈ rs, (specRemoveFlags rs F).count r = 0) := by
  refine ⟨?_, ?_, ?_⟩
  · rw [specRemoveFlags_eq_filter]
    rfl
  · intro h
    rw [specRemoveFlags_eq_filter]
    apply List.filter_eq_self.mpr
    intro a ha
    simp only [Bool.not_eq_true']
    rw [Bool.eq_false_iff]
    intro hc
    exact h a ((contains_eq_true_iff rs a).mp hc) ha
  · intro r hr
    rw [specRemoveFlags_eq_filter, List.count_eq_zero]
    intro hmem
    have := List.of_mem_filter hmem
    simp only [Bool.not_eq_true'] at this
    rw [(contains_eq_true_iff rs r).mpr hr] at this
    exact absurd this (by simp)

/-- Witness for C1 at Scenario C of the spec: removing `-Wall` and
adding `-DFOO` turns flags `[-c, -Wall, a.c]` into `[-c, a.c, -DFOO]`;
removing the absent `-O2` is a no-op; `-Wall` survives nowhere. -/
theorem transform_pass_removes_then_appends_witness :
    (SemanticTransform.Transform ["-DFOO"] ["-Wall"]).transform_pass
        (.Compile "a.c" "a.o" ["-c", "-Wall", "a.c"]) =
      some (.Compile "a.c" "a.o" (["-c", "a.c"] ++ ["-DFOO"])) ∧
    specRemoveFlags ["-O2"] ["-c", "-Wall", "a.c"] = ["-c", "-Wall", "a.c"] ∧
    (specRemoveFlags ["-Wall"] ["-c", "-Wall", "a.c"]).count "-Wall" = 0 := by
  refine ⟨?_, ?_, ?_⟩
  · have h :=
      (transform_pass_removes_then_appends ["-DFOO"] ["-Wall"] "a.c" "a.o"
        ["-c", "-Wall", "a.c"]).1
    rw [h]
    have : specRemoveFlags ["-Wall"] ["-c", "-Wall", "a.c"] = ["-c", "a.c"] := by decide
    rw [this]
  · exact (transform_pass_removes_then_appends [] ["-O2"] "a.c" "a.o"
      ["-c", "-Wall", "a.c"]).2.1 (by decide)
  · exact (transform_pass_removes_then_appends [] ["-Wall"] "a.c" "a.o"
      ["-c", "-Wall", "a.c"]).2.2 "-Wall" (by decide)

theorem transform_pass_transform_eq (add rs : List String) (p : CompilerPass) :
    (SemanticTransform.Transform add rs).transform_pass p = some (rewriteFlagsFun add rs p) := by
  cases p <;> rfl

theorem transform_passes_transform_eq (add rs : List String) (ps : List CompilerPass) :
    (SemanticTransform.Transform add rs).transform_passes ps =
      some (ps.map (rewriteFlagsFun add rs)) := by
  induction ps with
  | nil => rfl
  | cons p ps ih =>
    simp [SemanticTransform.transform_passes, transform_pass_transform_eq, ih]

theorem apply_transform_eq (add rs : List String) (c w : String) (ps : List CompilerPass) :
    (SemanticTransform.Transform add rs).apply (.Compiler c w ps) =
      some (.Compiler c w (ps.map (rewriteFlagsFun add rs))) := by
  simp [SemanticTransform.apply, transform_passes_transform_eq]

theorem rewriteFlagsFun_no_add_idem (rs : List String) (p : CompilerPass) :
    rewriteFlagsFun [] rs (rewriteFlagsFun [] rs p) = rewriteFlagsFun [] rs p := by
  cases p with
  | Compile s o F =>
    simp [rewriteFlagsFun, List.filter_filter]
  | Other t => rfl

/-- C3 counterexample: with the disjoint configuration
`arguments_to_add = [-DFOO]`, `arguments_to_remove = [-Wall]` and a
Compiler meaning with one Compile pass with flags `[-c]`, applying the
Transformer twice appends `-DFOO` twice, so it differs from applying it
once. -/
theorem transform_twice_ne_once_counterexample :
    "-DFOO" ∉ (["-Wall"] : List String) ∧
    ((SemanticTransform.Transform ["-DFOO"] ["-Wall"]).apply
          (.Compiler "cc" "/proj" [.Compile "a.c" "a.o" ["-c"]])).bind
        (SemanticTransform.Transform ["-DFOO"] ["-Wall"]).apply ≠
      (SemanticTransform.Transform ["-DFOO"] ["-Wall"]).apply
        (.Compiler "cc" "/proj" [.Compile "a.c" "a.o" ["-c"]]) := by
  constructor
  · decide
  · decide

/-- C3 (amended): applying the Transformer twice with the same
configuration equals applying it once whenever the configuration adds no
arguments (`arguments_to_add` empty); with a non-empty disjoint add
list, the second application appends the added flags again. -/
theorem transform_idempotent_of_no_additions
    (t : SemanticTransform) (m : Meaning) (h : t.argumentsToAdd = []) :
    (t.apply m).bind t.apply = t.apply m := by
  cases t with
  | NoTransform =>
    cases m <;> rfl
  | Transform add rs =>
    have hadd : add = [] := h
    subst hadd
    cases m with
    | Ignored => rfl
    | Compiler c w ps =>
      rw [apply_transform_eq, Option.some_bind, apply_transform_eq, List.map_map]
      have : ps.map (rewriteFlagsFun [] rs ∘ rewriteFlagsFun [] rs) =
          ps.map (rewriteFlagsFun [] rs) := by
        apply List.map_congr_left
        intro p _
        exact rewriteFlagsFun_no_add_idem rs p
      rw [this]

/-- Witness for C3 (amended) at a concrete removal-only configuration
and a concrete Compiler meaning. -/
theorem transform_idempotent_of_no_additions_witness :
    ((SemanticTransform.Transform [] ["-Wall"]).apply
          (.Compiler "cc" "/proj" [.Compile "a.c" "a.o" ["-c", "-Wall"]])).bind
        (SemanticTransform.Transform [] ["-Wall"]).apply =
      (SemanticTransform.Transform [] ["-Wall"]).apply
        (.Compiler "cc" "/proj" [.Compile "a.c" "a.o" ["-c", "-Wall"]]) :=
  transform_idempotent_of_no_additions (.Transform [] ["-Wall"])
    (.Compiler "cc" "/proj" [.Compile "a.c" "a.o" ["-c", "-Wall"]]) rfl

/-- C4: on a Compiler meaning with k passes, the Transformer (in either
state) yields a Compiler meaning with exactly k passes in the same
order, with the same compiler and working directory; each Compile pass
keeps its source and output (only flags may change) and every
non-Compile pass is unchanged. -/
theorem apply_preserves_shape (t : SemanticTransform) (c w : String) (ps : List CompilerPass) :
    ∃ qs, t.apply (.Compiler c w ps) = some (.Compiler c w qs) ∧
      qs.length = ps.length ∧ List.Forall₂ passShapePreserved ps qs := by
  cases t with
  | NoTransform =>
    refine ⟨ps, rfl, rfl, ?_⟩
    apply List.forall₂_same.mpr
    intro p _
    cases p with
    | Compile s o F => exact ⟨F, rfl⟩
    | Other tag => rfl
  | Transform add rs =>
    refine ⟨ps.map (rewriteFlagsFun add rs), apply_transform_eq add rs c w ps,
      List.length_map .., ?_⟩
    rw [List.forall₂_map_right_iff]
    apply List.forall₂_same.mpr
    intro p _
    cases p with
    | Compile s o F => exact ⟨_, rfl⟩
    | Other tag => rfl

/-- C5: in both transformer states, `apply` returns an `Ignored` input
unchanged and a Compiler meaning with only non-Compile passes unchanged,
and it never fails: the `panic!` branch of `transform_pass` (modelled as
`none`) is unreachable through `apply` for every meaning. -/
theorem apply_noop_and_never_panics (t : SemanticTransform) :
    t.apply .Ignored = some .Ignored ∧
    (∀ c w ps, (∀ p ∈ ps, p.isCompile = false) →
      t.apply (.Compiler c w ps) = some (.Compiler c w ps)) ∧
    (∀ m, t.apply m ≠ none) := by
  refine ⟨?_, ?_, ?_⟩
  · cases t <;> rfl
  · intro c w ps h
    cases t with
    | NoTransform => rfl
    | Transform add rs =>
      rw [apply_transform_eq]
      have : ps.map (rewriteFlagsFun add rs) = ps.map id := by
        apply List.map_congr_left
        intro p hp
        cases p with
        | Compile s o F => simpa [CompilerPass.isCompile] using h _ hp
        | Other tag => rfl
      rw [this, List.map_id]
  · intro m
    cases t with
    | NoTransform => cases m <;> simp [SemanticTransform.apply]
    | Transform add rs =>
      cases m with
      | Ignored => simp [SemanticTransform.apply]
      | Compiler c w ps => simp [apply_transform_eq]

/-- Witness for C5: a rewrite-state transformer leaves `Ignored` and a
link-only Compiler meaning untouched, and does not fail on a meaning
with a Compile pass. -/
theorem apply_noop_and_never_panics_witness :
    (SemanticTransform.Transform ["-DFOO"] ["-Wall"]).apply .Ignored = some .Ignored ∧
    (SemanticTransform.Transform ["-DFOO"] ["-Wall"]).apply
        (.Compiler "cc" "/proj" [.Other "link"]) =
      some (.Compiler "cc" "/proj" [.Other "link"]) ∧
    (SemanticTransform.Transform ["-DFOO"] ["-Wall"]).apply
        (.Compiler "cc" "/proj" [.Compile "a.c" "a.o" ["-c"]]) ≠ none := by
  have h := apply_noop_and_never_panics (.Transform ["-DFOO"] ["-Wall"])
  exact ⟨h.1, h.2.1 "cc" "/proj" [.Other "link"] (by decide),
    h.2.2 (.Compiler "cc" "/proj" [.Compile "a.c" "a.o" ["-c"]])⟩

/-- C8: the recognition stage yields a meaning for an execution exactly
when the recognizer returns `Recognized` with a successful non-`Ignored`
meaning; executions classified `NotRecognized`, `Recognized(Ignored)` or
`Recognized(failure)` are dropped from the output, and processing
continues with the remaining executions either way. -/
theorem recognition_yields_iff_recognized_compiler
    (R : SemanticRecognition) (ex : Execution) (m : Meaning) (rest : List Execution) :
    (R.apply ex = some m ↔ R.tool ex = .Recognized (.ok m) ∧ m ≠ .Ignored) ∧
    (R.apply ex = none → recognitionStage R (ex :: rest) = recognitionStage R rest) ∧
    (R.apply ex = some m →
      recognitionStage R (ex :: rest) = m :: recognitionStage R rest) := by
  refine ⟨?_, ?_, ?_⟩
  · cases htool : R.tool ex with
    | NotRecognized => simp [SemanticRecognition.apply, htool]
    | Recognized r =>
      cases r with
      | error reason => simp [SemanticRecognition.apply, htool]
      | ok sem =>
        cases sem with
        | Ignored =>
          simp only [SemanticRecognition.apply, htool]
          constructor
          · intro h
            exact absurd h (by simp)
          · rintro ⟨h1, h2⟩
            exact absurd (by injection h1 with h; injection h with h; exact h.symm) h2
        | Compiler c w ps =>
          simp only [SemanticRecognition.apply, htool]
          constructor
          · intro h
            injection h with h
            subst h
            exact ⟨rfl, by simp⟩
          · rintro ⟨h1, -⟩
            injection h1 with h
            injection h with h
            rw [h]
  · intro h
    simp [recognitionStage, List.filterMap_cons, h]
  · intro h
    simp [recognitionStage, List.filterMap_cons, h]

/-- Witness for C8: a recognized compiler execution reaches the output,
an unrecognized one is dropped while processing continues. -/
theorem recognition_yields_iff_recognized_compiler_witness :
    exampleRecognizer.apply ⟨[], [[45]], [], []⟩ = some (.Compiler "cc" "/proj" []) ∧
    recognitionStage exampleRecognizer [⟨[], [], [], []⟩, ⟨[], [[45]], [], []⟩] =
      recognitionStage exampleRecognizer [⟨[], [[45]], [], []⟩] ∧
    recognitionStage exampleRecognizer [⟨[], [[45]], [], []⟩] =
      .Compiler "cc" "/proj" [] :: recognitionStage exampleRecognizer [] := by
  refine ⟨?_, ?_, ?_⟩
  · exact (recognition_yields_iff_recognized_compiler exampleRecognizer
      ⟨[], [[45]], [], []⟩ (.Compiler "cc" "/proj" []) []).1.mpr ⟨rfl, by decide⟩
  · exact (recognition_yields_iff_recognized_compiler exampleRecognizer
      ⟨[], [], [], []⟩ .Ignored [⟨[], [[45]], [], []⟩]).2.1 rfl
  · exact (recognition_yields_iff_recognized_compiler exampleRecognizer
      ⟨[], [[45]], [], []⟩ (.Compiler "cc" "/proj" []) []).2.2 rfl

theorem takeWhile_marks (n : Nat) (rest : List Nat) :
    (List.replicate n 48 ++ 59 :: rest).takeWhile (fun c : Nat => c == 48) =
      List.replicate n 48 := by
  induction n with
  | zero =>
    simp [List.takeWhile_cons]
  | succ n ih =>
    simp only [List.replicate_succ, List.cons_append, List.takeWhile_cons]
    norm_num

theorem parseNat_encNat (n : Nat) (rest : List Nat) :
    parseNat (encNat n ++ rest) = some (n, rest) := by
  have hblock := takeWhile_marks n rest
  simp only [parseNat, encNat, List.append_assoc, List.cons_append, List.nil_append]
  rw [hblock, List.length_replicate,
    List.drop_left' (List.length_replicate ..)]

theorem parseBytes_encBytes (b : List Nat) (rest : List Nat) :
    parseBytes (encBytes b ++ rest) = some (b, rest) := by
  simp only [parseBytes, encBytes, List.append_assoc]
  rw [parseNat_encNat]
  simp only [List.length_append, Nat.le_add_right, if_true]
  rw [List.take_left, List.drop_left]

theorem parseMany_encMany {α : Type} (p : List Nat → Option (α × List Nat))
    (enc : α → List Nat) (hp : ∀ x rest, p (enc x ++ rest) = some (x, rest)) :
    ∀ (xs : List α) (rest : List Nat),
      parseMany p xs.length (encMany enc xs ++ rest) = some (xs, rest) := by
  intro xs
  induction xs with
  | nil =>
    intro rest
    simp [encMany, parseMany]
  | cons x xs ih =>
    intro rest
    simp only [encMany, List.length_cons, List.append_assoc, parseMany, hp, ih]

theorem parseListOf_encListOf {α : Type} (p : List Nat → Option (α × List Nat))
    (enc : α → List Nat) (hp : ∀ x rest, p (enc x ++ rest) = some (x, rest))
    (xs : List α) (rest : List Nat) :
    parseListOf p (encListOf enc xs ++ rest) = some (xs, rest) := by
  simp only [parseListOf, encListOf, List.append_assoc]
  rw [parseNat_encNat]
  exact parseMany_encMany p enc hp xs rest

theorem parsePairB_encPairB (x : List Nat × List Nat) (rest : List Nat) :
    parsePairB (encPairB x ++ rest) = some (x, rest) := by
  simp only [parsePairB, encPairB, List.append_assoc, parseBytes_encBytes]

theorem parseEnvelope_serializeEnvelope (e : Envelope) (rest : List Nat) :
    parseEnvelope (serializeEnvelope e ++ rest) = some (e, rest) := by
  have h1 := parseListOf_encListOf parseBytes encBytes parseBytes_encBytes
  have h2 := parseListOf_encListOf parsePairB encPairB parsePairB_encPairB
  simp only [serializeEnvelope, List.append_assoc, parseEnvelope, parseNat_encNat,
    parseBytes_encBytes, h1, h2, Option.some_bind]

theorem deserializeEnvelope_serializeEnvelope (e : Envelope) :
    deserializeEnvelope (serializeEnvelope e) = some e := by
  have h := parseEnvelope_serializeEnvelope e []
  rw [List.append_nil] at h
  simp [deserializeEnvelope, h]

theorem fromBeBytes4_natToBeBytes (m : Nat) :
    fromBeBytes4 (natToBeBytes m) = m % 2 ^ 32 := by
  simp only [natToBeBytes, fromBeBytes4]
  omega

theorem length_natToBeBytes (m : Nat) : (natToBeBytes m).length = 4 := rfl

theorem read_from_frame (e : Envelope) (rest : List Nat)
    (h : (serializeEnvelope e).length < 2 ^ 32) :
    Envelope.read_from ((Envelope.write_into e).1 ++ rest) = .ok (e, rest) := by
  have hmod : (serializeEnvelope e).length % 2 ^ 32 = (serializeEnvelope e).length :=
    Nat.mod_eq_of_lt h
  simp only [Envelope.write_into, hmod, List.append_assoc]
  simp only [Envelope.read_from]
  have h4 : readExact 4 (natToBeBytes (serializeEnvelope e).length ++
      (serializeEnvelope e ++ rest)) =
      .ok (natToBeBytes (serializeEnvelope e).length, serializeEnvelope e ++ rest) := by
    simp only [readExact, List.length_append, length_natToBeBytes]
    rw [if_pos (by omega)]
    rw [show (4 : Nat) = (natToBeBytes (serializeEnvelope e).length).length from rfl,
      List.take_left, List.drop_left]
  have hpay : readExact (serializeEnvelope e).length (serializeEnvelope e ++ rest) =
      .ok (serializeEnvelope e, rest) := by
    simp only [readExact, List.length_append]
    rw [if_pos (by omega)]
    rw [List.take_left, List.drop_left]
  simp only [h4, fromBeBytes4_natToBeBytes, hmod, hpay,
    deserializeEnvelope_serializeEnvelope]

/-- C2 (amended): for every envelope whose serialized payload is at most
`2 ^ 32 - 1` bytes, encoding with `write_into` and decoding the produced
bytes with `read_from` yields the same envelope (with the stream fully
consumed). -/
theorem write_into_read_from_roundtrip (x : Envelope)
    (h : (serializeEnvelope x).length < 2 ^ 32) :
    Envelope.read_from (Envelope.write_into x).1 = .ok (x, []) := by
  have hf := read_from_frame x [] h
  rwa [List.append_nil] at hf

/-- Witness for C2 (amended) at a concrete small envelope. -/
theorem write_into_read_from_roundtrip_witness :
    Envelope.read_from
        (Envelope.write_into ⟨1, 2, ⟨3, ⟨[99], [[45]], [47], [([65], [66])]⟩⟩⟩).1 =
      .ok (⟨1, 2, ⟨3, ⟨[99], [[45]], [47], [([65], [66])]⟩⟩⟩, []) :=
  write_into_read_from_roundtrip ⟨1, 2, ⟨3, ⟨[99], [[45]], [47], [([65], [66])]⟩⟩⟩
    (by decide)

/-- C10: `write_into` never fails; the 4-byte length prefix it writes is
the payload length reduced modulo `2 ^ 32` (the `as u32` cast of the
source), as is the returned value, and the prefix equals the true
payload length exactly when the payload is at most `2 ^ 32 - 1` bytes. -/
theorem write_into_length_prefix_mod (e : Envelope) :
    (Envelope.write_into e).1 =
      natToBeBytes ((serializeEnvelope e).length % 2 ^ 32) ++ serializeEnvelope e ∧
    (Envelope.write_into e).2 = (serializeEnvelope e).length % 2 ^ 32 ∧
    (fromBeBytes4 ((Envelope.write_into e).1.take 4) = (serializeEnvelope e).length ↔
      (serializeEnvelope e).length < 2 ^ 32) := by
  refine ⟨rfl, rfl, ?_⟩
  have htake : (Envelope.write_into e).1.take 4 =
      natToBeBytes ((serializeEnvelope e).length % 2 ^ 32) := by
    rw [show (Envelope.write_into e).1 =
      natToBeBytes ((serializeEnvelope e).length % 2 ^ 32) ++ serializeEnvelope e from rfl]
    rw [show (4 : Nat) =
      (natToBeBytes ((serializeEnvelope e).length % 2 ^ 32)).length from rfl]
    exact List.take_left ..
  rw [htake, fromBeBytes4_natToBeBytes]
  constructor
  · intro hmod
    have := Nat.mod_lt ((serializeEnvelope e).length % 2 ^ 32) (show 0 < 2 ^ 32 by norm_num)
    omega
  · intro hlt
    rw [Nat.mod_eq_of_lt hlt, Nat.mod_eq_of_lt hlt]

/-- C7 counterexample: for the empty-fields envelope the frame is 11
bytes long (4 prefix bytes plus a 7-byte payload) but `write_into`
returns 7, the payload length — not the number of bytes written. -/
theorem write_into_return_value_counterexample :
    (Envelope.write_into ⟨0, 0, ⟨0, ⟨[], [], [], []⟩⟩⟩).2 = 7 ∧
    (Envelope.write_into ⟨0, 0, ⟨0, ⟨[], [], [], []⟩⟩⟩).1.length = 11 ∧
    (Envelope.write_into ⟨0, 0, ⟨0, ⟨[], [], [], []⟩⟩⟩).2 ≠
      (Envelope.write_into ⟨0, 0, ⟨0, ⟨[], [], [], []⟩⟩⟩).1.length := by
  refine ⟨by decide, by decide, by decide⟩

/-- C7 (amended): for payloads below `2 ^ 32` bytes, `write_into` writes
a frame of the 4-byte big-endian payload length followed by exactly that
many payload bytes, and on success returns the payload length — the
count of serialized bytes, which excludes the 4-byte prefix (the total
written is 4 more). -/
theorem write_into_frame_layout (e : Envelope)
    (h : (serializeEnvelope e).length < 2 ^ 32) :
    (Envelope.write_into e).1 =
      natToBeBytes (serializeEnvelope e).length ++ serializeEnvelope e ∧
    fromBeBytes4 (natToBeBytes (serializeEnvelope e).length) =
      (serializeEnvelope e).length ∧
    (Envelope.write_into e).2 = (serializeEnvelope e).length ∧
    (Envelope.write_into e).1.length = 4 + (serializeEnvelope e).length := by
  have hmod : (serializeEnvelope e).length % 2 ^ 32 = (serializeEnvelope e).length :=
    Nat.mod_eq_of_lt h
  refine ⟨?_, ?_, ?_, ?_⟩
  · rw [show (Envelope.write_into e).1 =
      natToBeBytes ((serializeEnvelope e).length % 2 ^ 32) ++ serializeEnvelope e from rfl,
      hmod]
  · rw [fromBeBytes4_natToBeBytes, hmod]
  · rw [show (Envelope.write_into e).2 = (serializeEnvelope e).length % 2 ^ 32 from rfl,
      hmod]
  · rw [show (Envelope.write_into e).1 =
      natToBeBytes ((serializeEnvelope e).length % 2 ^ 32) ++ serializeEnvelope e from rfl,
      List.length_append, length_natToBeBytes]

/-- Witness for C7 (amended) at a concrete small envelope. -/
theorem write_into_frame_layout_witness :
    (Envelope.write_into ⟨0, 0, ⟨0, ⟨[], [], [], []⟩⟩⟩).1 =
      natToBeBytes (serializeEnvelope ⟨0, 0, ⟨0, ⟨[], [], [], []⟩⟩⟩).length ++
        serializeEnvelope ⟨0, 0, ⟨0, ⟨[], [], [], []⟩⟩⟩ ∧
    (Envelope.write_into ⟨0, 0, ⟨0, ⟨[], [], [], []⟩⟩⟩).2 =
      (serializeEnvelope ⟨0, 0, ⟨0, ⟨[], [], [], []⟩⟩⟩).length := by
  have h := write_into_frame_layout ⟨0, 0, ⟨0, ⟨[], [], [], []⟩⟩⟩ (by decide)
  exact ⟨h.1, h.2.2.1⟩

/-- C6: `read_from` reads exactly 4 length bytes and fails with an
end-of-stream error if they are unavailable; it then reads exactly that
many payload bytes, failing with an end-of-stream error if unavailable;
it then parses the payload, failing with a format error if parsing
fails; and it returns a value exactly when all three steps succeed, in
which case the stream past the frame is untouched. -/
theorem read_from_step_characterization (s : List Nat) :
    (s.length < 4 → Envelope.read_from s = .error .eof) ∧
    (4 ≤ s.length → (s.drop 4).length < fromBeBytes4 (s.take 4) →
      Envelope.read_from s = .error .eof) ∧
    (4 ≤ s.length → fromBeBytes4 (s.take 4) ≤ (s.drop 4).length →
      deserializeEnvelope ((s.drop 4).take (fromBeBytes4 (s.take 4))) = none →
      Envelope.read_from s = .error .format) ∧
    (∀ e, 4 ≤ s.length → fromBeBytes4 (s.take 4) ≤ (s.drop 4).length →
      deserializeEnvelope ((s.drop 4).take (fromBeBytes4 (s.take 4))) = some e →
      Envelope.read_from s = .ok (e, (s.drop 4).drop (fromBeBytes4 (s.take 4)))) ∧
    (∀ e r, Envelope.read_from s = .ok (e, r) →
      4 ≤ s.length ∧ fromBeBytes4 (s.take 4) ≤ (s.drop 4).length ∧
      deserializeEnvelope ((s.drop 4).take (fromBeBytes4 (s.take 4))) = some e ∧
      r = (s.drop 4).drop (fromBeBytes4 (s.take 4))) := by
  refine ⟨?_, ?_, ?_, ?_, ?_⟩
  · intro h
    have h1 : readExact 4 s = .error .eof := by
      simp only [readExact]
      rw [if_neg (by omega)]
    simp only [Envelope.read_from, h1]
  · intro h4 hlt
    have h1 : readExact 4 s = .ok (s.take 4, s.drop 4) := by
      simp only [readExact]
      rw [if_pos h4]
    have h2 : readExact (fromBeBytes4 (s.take 4)) (s.drop 4) = .error .eof := by
      simp only [readExact]
      rw [if_neg (by omega)]
    simp only [Envelope.read_from, h1, h2]
  · intro h4 hle hparse
    have h1 : readExact 4 s = .ok (s.take 4, s.drop 4) := by
      simp only [readExact]
      rw [if_pos h4]
    have h2 : readExact (fromBeBytes4 (s.take 4)) (s.drop 4) =
        .ok ((s.drop 4).take (fromBeBytes4 (s.take 4)),
          (s.drop 4).drop (fromBeBytes4 (s.take 4))) := by
      simp only [readExact]
      rw [if_pos hle]
    simp only [Envelope.read_from, h1, h2, hparse]
  · intro e h4 hle hparse
    have h1 : readExact 4 s = .ok (s.take 4, s.drop 4) := by
      simp only [readExact]
      rw [if_pos h4]
    have h2 : readExact (fromBeBytes4 (s.take 4)) (s.drop 4) =
        .ok ((s.drop 4).take (fromBeBytes4 (s.take 4)),
          (s.drop 4).drop (fromBeBytes4 (s.take 4))) := by
      simp only [readExact]
      rw [if_pos hle]
    simp only [Envelope.read_from, h1, h2, hparse]
  · intro e r hok
    by_cases h4 : 4 ≤ s.length
    · have h1 : readExact 4 s = .ok (s.take 4, s.drop 4) := by
        simp only [readExact]
        rw [if_pos h4]
      by_cases hle : fromBeBytes4 (s.take 4) ≤ (s.drop 4).length
      · have h2 : readExact (fromBeBytes4 (s.take 4)) (s.drop 4) =
            .ok ((s.drop 4).take (fromBeBytes4 (s.take 4)),
              (s.drop 4).drop (fromBeBytes4 (s.take 4))) := by
          simp only [readExact]
          rw [if_pos hle]
        refine ⟨h4, hle, ?_⟩
        simp only [Envelope.read_from, h1, h2] at hok
        cases hparse :
            deserializeEnvelope ((s.drop 4).take (fromBeBytes4 (s.take 4))) with
        | none =>
          rw [hparse] at hok
          exact absurd hok (by simp)
        | some e2 =>
          rw [hparse] at hok
          injection hok with hok
          injection hok with hok1 hok2
          subst hok1
          exact ⟨rfl, hok2.symm⟩
      · have h2 : readExact (fromBeBytes4 (s.take 4)) (s.drop 4) = .error .eof := by
          simp only [readExact]
          rw [if_neg hle]
        simp only [Envelope.read_from, h1, h2] at hok
        exact absurd hok (by simp)
    · have h1 : readExact 4 s = .error .eof := by
        simp only [readExact]
        rw [if_neg h4]
      simp only [Envelope.read_from, h1] at hok
      exact absurd hok (by simp)

/-- Witness for C6: a 2-byte stream fails with end-of-stream, a frame
whose 2-byte payload is not a valid envelope fails with a format error,
and a well-formed frame decodes and returns the remainder. -/
theorem read_from_step_characterization_witness :
    Envelope.read_from [0, 0] = .error .eof ∧
    Envelope.read_from [0, 0, 0, 2, 97, 98] = .error .format ∧
    Envelope.read_from [0, 0, 0, 7, 59, 59, 59, 59, 59, 59, 59] =
      .ok (⟨0, 0, ⟨0, ⟨[], [], [], []⟩⟩⟩, []) := by
  refine ⟨?_, ?_, ?_⟩
  · exact (read_from_step_characterization [0, 0]).1 (by decide)
  · exact (read_from_step_characterization [0, 0, 0, 2, 97, 98]).2.2.1
      (by decide) (by decide) (by decide)
  · exact (read_from_step_characterization
      [0, 0, 0, 7, 59, 59, 59, 59, 59, 59, 59]).2.2.2.1
      ⟨0, 0, ⟨0, ⟨[], [], [], []⟩⟩⟩ (by decide) (by decide) (by decide)

/-- C9: under the collector's single-writer append discipline, the log
produced by any number of reporters each contributing one envelope (in
any completion order) consists of exactly that many well-formed frames:
decoding the log frame by frame yields exactly the envelopes, none
interleaved or truncated. -/
theorem collector_log_decodes (es : List Envelope)
    (h : ∀ e ∈ es, (serializeEnvelope e).length < 2 ^ 32) :
    readFrames es.length (collectorLog es) = .ok es := by
  induction es with
  | nil => rfl
  | cons e es ih =>
    have hf := read_from_frame e (collectorLog es) (h e (by simp))
    have hbt : (Envelope.write_into e).1 ++ collectorLog es =
        ((serializeEnvelope e).length % 2 ^ 32) / 2 ^ 24 % 256 ::
          ((((serializeEnvelope e).length % 2 ^ 32) / 2 ^ 16 % 256) ::
            ((((serializeEnvelope e).length % 2 ^ 32) / 2 ^ 8 % 256) ::
              ((((serializeEnvelope e).length % 2 ^ 32) % 256) ::
                (serializeEnvelope e ++ collectorLog es)))) := by
      simp [Envelope.write_into, natToBeBytes]
    rw [show collectorLog (e :: es) = (Envelope.write_into e).1 ++ collectorLog es from rfl,
      List.length_cons]
    rw [hbt]
    simp only [readFrames]
    rw [← hbt]
    simp only [hf, ih (fun x hx => h x (by simp [hx]))]

/-- Witness for C9 with three hundred concurrent reporters, each
contributing one envelope. -/
theorem collector_log_decodes_witness :
    readFrames 300
        (collectorLog (List.replicate 300 (⟨1, 2, ⟨3, ⟨[99], [[45]], [47], []⟩⟩⟩ :
          Envelope))) =
      .ok (List.replicate 300 ⟨1, 2, ⟨3, ⟨[99], [[45]], [47], []⟩⟩⟩) := by
  have h : ∀ e ∈ List.replicate 300 (⟨1, 2, ⟨3, ⟨[99], [[45]], [47], []⟩⟩⟩ : Envelope),
      (serializeEnvelope e).length < 2 ^ 32 := by
    intro e he
    rw [List.eq_of_mem_replicate he]
    decide
  have hmain := collector_log_decodes _ h
  rw [List.length_replicate] at hmain
  exact hmain

theorem bigArgument_length : bigArgument.length = 2147483646 :=
  List.length_replicate ..

theorem encNat_zero : encNat 0 = [59] := rfl

theorem encNat_one : encNat 1 = [48, 59] := by decide

theorem serializeEnvelope_envelopeBig :
    serializeEnvelope envelopeBig =
      59 :: 59 :: 59 :: 59 :: 48 :: 59 ::
        (List.replicate 2147483646 48 ++ (59 :: (bigArgument ++ [59, 59]))) := by
  have hbig : encNat 2147483646 = List.replicate 2147483646 48 ++ [59] := rfl
  simp only [serializeEnvelope, envelopeBig, encListOf, encMany, encBytes,
    bigArgument_length, List.length_nil, List.length_cons, Nat.zero_add,
    List.append_nil, List.append_assoc]
  simp only [encNat_zero, encNat_one, hbig, List.append_assoc, List.cons_append,
    List.nil_append]

theorem length_six_cons (T : List Nat) :
    (59 :: 59 :: 59 :: 59 :: 48 :: 59 :: T).length = T.length + 6 := by
  simp [List.length_cons]

theorem length_tail_envelopeBig :
    (List.replicate 2147483646 48 ++ (59 :: (bigArgument ++ [59, 59]))).length =
      4294967295 := by
  rw [List.length_append, List.length_replicate, List.length_cons, List.length_append,
    bigArgument_length]
  decide

theorem length_serializeEnvelope_envelopeBig :
    (serializeEnvelope envelopeBig).length = 2 ^ 32 + 5 := by
  rw [serializeEnvelope_envelopeBig, length_six_cons, length_tail_envelopeBig]
  norm_num

theorem read_from_truncated (payload : List Nat) (n : Nat)
    (hn : n < 2 ^ 32) (hlen : n ≤ payload.length)
    (hparse : deserializeEnvelope (payload.take n) = none) :
    Envelope.read_from (natToBeBytes n ++ payload) = .error .format := by
  have h4 : readExact 4 (natToBeBytes n ++ payload) = .ok (natToBeBytes n, payload) := by
    simp only [readExact, List.length_append, length_natToBeBytes]
    rw [if_pos (by omega)]
    rw [show (4 : Nat) = (natToBeBytes n).length from rfl, List.take_left, List.drop_left]
  have hpay : readExact n payload = .ok (payload.take n, payload.drop n) := by
    simp only [readExact]
    rw [if_pos hlen]
  simp only [Envelope.read_from, h4, fromBeBytes4_natToBeBytes, Nat.mod_eq_of_lt hn,
    hpay, hparse]

/-- C2 counterexample: for the envelope with one argument of 2147483646
bytes the serialized payload is `2 ^ 32 + 5` bytes, the written length
prefix is 5 (the `as u32` truncation), so `read_from` parses only the
first 5 payload bytes and fails with a format error instead of
reproducing the envelope. -/
theorem write_read_roundtrip_counterexample :
    Envelope.read_from (Envelope.write_into envelopeBig).1 = .error .format ∧
    Envelope.read_from (Envelope.write_into envelopeBig).1 ≠ .ok (envelopeBig, []) := by
  have hpre : (Envelope.write_into envelopeBig).1 =
      natToBeBytes 5 ++ serializeEnvelope envelopeBig := by
    rw [show (Envelope.write_into envelopeBig).1 =
      natToBeBytes ((serializeEnvelope envelopeBig).length % 2 ^ 32) ++
        serializeEnvelope envelopeBig from rfl]
    rw [length_serializeEnvelope_envelopeBig]
    rw [show (2 ^ 32 + 5) % 2 ^ 32 = 5 by omega]
  have htake5 : (serializeEnvelope envelopeBig).take 5 = [59, 59, 59, 59, 48] := by
    rw [serializeEnvelope_envelopeBig]
    exact (fun T : List Nat =>
      (rfl : List.take 5 (59 :: 59 :: 59 :: 59 :: 48 :: T) = [59, 59, 59, 59, 48])) _
  have hparse : deserializeEnvelope ((serializeEnvelope envelopeBig).take 5) = none := by
    rw [htake5]
    decide
  have hmain : Envelope.read_from (Envelope.write_into envelopeBig).1 = .error .format := by
    rw [hpre]
    exact read_from_truncated (serializeEnvelope envelopeBig) 5 (by norm_num)
      (by rw [length_serializeEnvelope_envelopeBig]; norm_num) hparse
  exact ⟨hmain, by rw [hmain]; simp⟩

end Bear
